import Mathlib

/-
Verification of the yannq RBM core: shallow embedding of
Machines/RBM.hpp (RBM machine), States/RBMState.hpp (RBMStateValue with
incremental theta updates and log-ratio queries) and
Runners/RunRBMExact.hpp (the fixed-count optimization loop),
in exact real arithmetic.
-/

namespace Yannq

/-- Modelled from the spec: `logCosh` is defined in Utilities/Utility.hpp,
which is not part of the provided sources.  The spec describes it as a
numerically stable evaluation of log(cosh(x)) (the stable form
|x| + log(1+exp(-2|x|)) - log 2 equals log(cosh x) in exact arithmetic). -/
noncomputable def logCosh (x : ℝ) : ℝ := Real.log (Real.cosh x)

/-- The RBM machine of Machines/RBM.hpp: weight matrix `W` (m rows, n
columns, entry `W j i`), visible bias `a` (length n), hidden bias `b`
(length m), and the `useBias_` flag. The sizes n (visible) and m (hidden)
are type parameters. -/
@[ext]
structure RBM (n m : ℕ) where
  useBias : Bool
  W : Fin m → Fin n → ℝ
  a : Fin n → ℝ
  b : Fin m → ℝ

variable {n m : ℕ}

/-- `RBM::calcTheta`: theta = W·sigma + b. -/
noncomputable def calcTheta (M : RBM n m) (σ : Fin n → ℤ) : Fin m → ℝ :=
  fun j => (∑ i, M.W j i * (σ i : ℝ)) + M.b j

/-- The `(sigma, theta)` pair owned by `RBMStateValue`. -/
@[ext]
structure RBMStateValue (n m : ℕ) where
  sigma : Fin n → ℤ
  theta : Fin m → ℝ

/-- The `RBMStateValue` constructor: theta is computed once from sigma. -/
noncomputable def mkState (M : RBM n m) (σ : Fin n → ℤ) : RBMStateValue n m :=
  ⟨σ, calcTheta M σ⟩

/-- `RBMStateValue::flip(k)`: subtract `2*sigma(k)*W(j,k)` from every
`theta(j)`, then negate `sigma(k)`. -/
noncomputable def flip1 (M : RBM n m) (s : RBMStateValue n m) (k : Fin n) :
    RBMStateValue n m where
  sigma := Function.update s.sigma k (-(s.sigma k))
  theta := fun j => s.theta j - 2 * (s.sigma k : ℝ) * M.W j k

/-- `RBMStateValue::flip(k,l)`: every theta entry is updated using the
pre-flip sigma values, then `sigma(k)` and `sigma(l)` are negated in turn. -/
noncomputable def flip2 (M : RBM n m) (s : RBMStateValue n m) (k l : Fin n) :
    RBMStateValue n m where
  sigma :=
    let s1 := Function.update s.sigma k (-(s.sigma k))
    Function.update s1 l (-(s1 l))
  theta := fun j => s.theta j +
    (-(2 * (s.sigma k : ℝ) * M.W j k) - 2 * (s.sigma l : ℝ) * M.W j l)

/-- The sigma negation loop of `RBMStateValue::flip(array)`. -/
def negAll (v : List (Fin n)) (σ : Fin n → ℤ) : Fin n → ℤ :=
  v.foldl (fun s e => Function.update s e (-(s e))) σ

/-- `RBMStateValue::flip(array)`: the first loop subtracts
`2*sigma(elt)*W(j,elt)` from theta for every listed site, reading the
pre-flip sigma throughout; the second loop then negates the listed
sigma entries. -/
noncomputable def flipArr (M : RBM n m) (s : RBMStateValue n m)
    (v : List (Fin n)) : RBMStateValue n m where
  sigma := negAll v s.sigma
  theta := fun j => s.theta j - (v.map (fun e => 2 * (s.sigma e : ℝ) * M.W j e)).sum

/-- `RBMStateObj::logRatio(k)`: log of psi(sigma with k flipped)/psi(sigma),
computed from the cached theta without touching the state. -/
noncomputable def logRatio1 (M : RBM n m) (s : RBMStateValue n m) (k : Fin n) : ℝ :=
  -2 * M.a k * (s.sigma k : ℝ) +
    ∑ j, (logCosh (s.theta j - 2 * (s.sigma k : ℝ) * M.W j k) - logCosh (s.theta j))

/-- `RBMStateObj::logRatio(k,l)`. -/
noncomputable def logRatio2 (M : RBM n m) (s : RBMStateValue n m) (k l : Fin n) : ℝ :=
  -2 * M.a k * (s.sigma k : ℝ) - 2 * M.a l * (s.sigma l : ℝ) +
    ∑ j, (logCosh (s.theta j - 2 * (s.sigma k : ℝ) * M.W j k
                    - 2 * (s.sigma l : ℝ) * M.W j l) - logCosh (s.theta j))

/-- `RBMStateObj::logRatio(array)`. -/
noncomputable def logRatioArr (M : RBM n m) (s : RBMStateValue n m)
    (v : List (Fin n)) : ℝ :=
  (v.map (fun e => -2 * M.a e * (s.sigma e : ℝ))).sum +
    ∑ j, (logCosh (s.theta j - (v.map (fun e => 2 * (s.sigma e : ℝ) * M.W j e)).sum)
          - logCosh (s.theta j))

/-- `RBM::logCoeff`: aᵗ·sigma + Σ_j logcosh(theta_j). -/
noncomputable def logCoeff (M : RBM n m) (σ : Fin n → ℤ) (θ : Fin m → ℝ) : ℝ :=
  (∑ i, M.a i * (σ i : ℝ)) + ∑ j, logCosh (θ j)

/-- `RBM::coeff`: exp(aᵗ·sigma) · Π_j cosh(theta_j). -/
noncomputable def coeff (M : RBM n m) (σ : Fin n → ℤ) (θ : Fin m → ℝ) : ℝ :=
  Real.exp (∑ i, M.a i * (σ i : ℝ)) * ∏ j, Real.cosh (θ j)

/-- `RBM::getDim`: parameter dimension, n·m + n + m with bias, n·m without. -/
def getDim (M : RBM n m) : ℕ := if M.useBias then n * m + n + m else n * m

/-- `RBM::getParams`: the flat parameter layout.  Eigen stores `W_` in
column-major order, so flat index `i*m + j` (for `i < n`, `j < m`) holds
`W(j,i)`; with bias, `a` follows at offset `n*m` and `b` at `n*m + n`.
Indices at or beyond the parameter dimension are mapped to 0. -/
noncomputable def getParams (M : RBM n m) : ℕ → ℝ := fun t =>
  if h : t < n * m then
    M.W ⟨t % m, Nat.mod_lt t (by rcases Nat.eq_zero_or_pos m with hm | hm
                                 · subst hm; omega
                                 · exact hm)⟩
        ⟨t / m, by
          have hm : 0 < m := by
            rcases Nat.eq_zero_or_pos m with hm | hm
            · subst hm; omega
            · exact hm
          exact (Nat.div_lt_iff_lt_mul hm).2 h⟩
  else if M.useBias then
    if h2 : t < n * m + n then M.a ⟨t - n * m, by omega⟩
    else if h3 : t < n * m + n + m then M.b ⟨t - n * m - n, by omega⟩
    else 0
  else 0

/-- `RBM::setParams`: read the parameters back from the same flat
column-major layout.  When bias is disabled only `W` is read, exactly as
the source returns early before touching `a_` and `b_`. -/
noncomputable def setParams (p : ℕ → ℝ) (M : RBM n m) : RBM n m where
  useBias := M.useBias
  W := fun j i => p (i.val * m + j.val)
  a := if M.useBias then (fun i => p (n * m + i.val)) else M.a
  b := if M.useBias then (fun j => p (n * m + n + j.val)) else M.b

/-- `RBM::updateParams`: add a flat delta vector, same layout as
`getParams`/`setParams`; when bias is disabled it returns after the `W`
update, leaving `a_` and `b_` untouched. -/
noncomputable def updateParams (p : ℕ → ℝ) (M : RBM n m) : RBM n m where
  useBias := M.useBias
  W := fun j i => M.W j i + p (i.val * m + j.val)
  a := if M.useBias then (fun i => M.a i + p (n * m + i.val)) else M.a
  b := if M.useBias then (fun j => M.b j + p (n * m + n + j.val)) else M.b

/-- `RBM::logDeriv`: flat gradient of logCoeff.  Segment `i*m .. i*m+m-1`
holds `sigma(i)·tanh(theta)`, i.e. flat index `i*m + j` holds
`sigma(i)·tanh(theta(j))` (column-major, like `getParams`); with bias,
`sigma` follows at offset `n*m` and `tanh(theta)` at `n*m + n`. -/
noncomputable def logDeriv (M : RBM n m) (σ : Fin n → ℤ) (θ : Fin m → ℝ) :
    ℕ → ℝ := fun t =>
  if h : t < n * m then
    (σ ⟨t / m, by
          have hm : 0 < m := by
            rcases Nat.eq_zero_or_pos m with hm | hm
            · subst hm; omega
            · exact hm
          exact (Nat.div_lt_iff_lt_mul hm).2 h⟩ : ℝ) *
      Real.tanh (θ ⟨t % m, Nat.mod_lt t (by rcases Nat.eq_zero_or_pos m with hm | hm
                                            · subst hm; omega
                                            · exact hm)⟩)
  else if M.useBias then
    if h2 : t < n * m + n then (σ ⟨t - n * m, by omega⟩ : ℝ)
    else if h3 : t < n * m + n + m then Real.tanh (θ ⟨t - n * m - n, by omega⟩)
    else 0
  else 0

/-- `RBM::operator==` for machines of equal sizes: `equalW` is computed,
and with bias the result is `equalW && (a == a) && (b == b)`, else
`equalW` alone. -/
def rbmEq (M1 M2 : RBM n m) : Prop :=
  let equalW := M1.W = M2.W
  if M1.useBias then equalW ∧ M1.a = M2.a ∧ M1.b = M2.b else equalW

/-- Modelled from the spec: `toSigma` is defined in Utilities/Utility.hpp,
which is not part of the provided sources; it decodes a basis-state index
into a ±1 configuration bit by bit. -/
def toSigma (n : ℕ) (idx : ℕ) : Fin n → ℤ :=
  fun i => if (idx >>> i.val) % 2 = 1 then 1 else -1

/-- `getPsi` (unnormalized): the amplitude `coeff(makeData(toSigma(n,idx)))`
for every basis index. -/
noncomputable def getPsi (M : RBM n m) : Fin (2 ^ n) → ℝ :=
  fun idx => coeff M (toSigma n idx.val) (calcTheta M (toSigma n idx.val))

/-- One mutating flip call on an `RBMStateValue`: `flip(k)`, `flip(k,l)`,
or `flip(array)`. -/
inductive FlipOp (n : ℕ) where
  | single : Fin n → FlipOp n
  | double : Fin n → Fin n → FlipOp n
  | multi : List (Fin n) → FlipOp n

/-- Dispatch of a flip call to the corresponding member function. -/
noncomputable def applyFlip (M : RBM n m) (s : RBMStateValue n m) :
    FlipOp n → RBMStateValue n m
  | .single k => flip1 M s k
  | .double k l => flip2 M s k l
  | .multi v => flipArr M s v

/-- The flipped sites of one call are pairwise distinct. -/
def distinctSites : FlipOp n → Prop
  | .single _ => True
  | .double k l => k ≠ l
  | .multi v => v.Nodup

/-- The iteration loop of `RunRBMExact::run`, with the per-iteration body
(build the SR matrices, solve, feed the optimizer, update the machine)
abstracted as a step function returning the updated machine, the energy
estimate `currE` and the update norm `nv`.  `runExactFrom step ll c mach`
runs `c` loop iterations starting at epoch `ll` and returns the final
machine together with the `(ll, currE, nv)` callback invocations in order. -/
def runExactFrom {A : Type} (step : A → A × ℝ × ℝ) :
    ℕ → ℕ → A → A × List (ℕ × ℝ × ℝ)
  | _, 0, mach => (mach, [])
  | ll, c + 1, mach =>
      ((runExactFrom step (ll + 1) c (step mach).1).1,
        (ll, (step mach).2.1, (step mach).2.2) ::
          (runExactFrom step (ll + 1) c (step mach).1).2)

/-- `RunRBMExact::run`: the loop `for(ll = 0; ll <= maxIter; ll++)`,
i.e. `maxIter + 1` iterations, each ending in exactly one callback call. -/
def runRBMExact {A : Type} (step : A → A × ℝ × ℝ) (maxIter : ℕ) (m0 : A) :
    A × List (ℕ × ℝ × ℝ) :=
  runExactFrom step 0 (maxIter + 1) m0

/-- The all-(+1) configuration. -/
def allOnes (n : ℕ) : Fin n → ℤ := fun _ => 1

/-- Concrete 1-visible/1-hidden machine with W = 1 and zero biases. -/
noncomputable def rbmW1 : RBM 1 1 := ⟨true, fun _ _ => 1, fun _ => 0, fun _ => 0⟩

/-- Concrete 1-visible/1-hidden machine with W = 0, a = 1, b = 0. -/
noncomputable def rbmA1 : RBM 1 1 := ⟨true, fun _ _ => 0, fun _ => 1, fun _ => 0⟩

/-- Concrete 1-visible/1-hidden machine with W = 1, a = 1, b = 0. -/
noncomputable def rbmWA : RBM 1 1 := ⟨true, fun _ _ => 1, fun _ => 1, fun _ => 0⟩

/-- Concrete machine with all parameters zero. -/
noncomputable def rbmZero : RBM 1 1 := ⟨true, fun _ _ => 0, fun _ => 0, fun _ => 0⟩

/-- Concrete 2-visible/1-hidden machine with W = 0, a = 1, b = 0. -/
noncomputable def rbmA2 : RBM 2 1 := ⟨true, fun _ _ => 0, fun _ => 1, fun _ => 0⟩

/-- Concrete 2-visible/2-hidden machine with W = 0, a = 0 and hidden bias
(0, 1), so that calcTheta of any configuration is (0, 1). -/
noncomputable def rbmB2 : RBM 2 2 :=
  ⟨true, fun _ _ => 0, fun _ => 0, fun j => if j = 0 then 0 else 1⟩

/-- Summing `c i * sigma i` after negating the k-th sigma entry loses
`2 * sigma k * c k`. -/
lemma sum_mul_update (c : Fin n → ℝ) (σ : Fin n → ℤ) (k : Fin n) :
    ∑ i, c i * ((Function.update σ k (-(σ k)) i : ℤ) : ℝ)
      = (∑ i, c i * (σ i : ℝ)) - 2 * (σ k : ℝ) * c k := by
  have hsplit : ∀ i, c i * ((Function.update σ k (-(σ k)) i : ℤ) : ℝ)
      = c i * (σ i : ℝ) + (if i = k then -(2 * (σ k : ℝ) * c k) else 0) := by
    intro i
    rcases eq_or_ne i k with rfl | h
    · simp only [Function.update_same, if_pos rfl]
      push_cast
      ring
    · rw [Function.update_noteq h, if_neg h, add_zero]
  rw [Finset.sum_congr rfl (fun i _ => hsplit i), Finset.sum_add_distrib]
  simp [Finset.sum_ite_eq']
  ring

/-- Effect of a single sigma flip on the freshly recomputed theta. -/
lemma calcTheta_update (M : RBM n m) (σ : Fin n → ℤ) (k : Fin n) (j : Fin m) :
    calcTheta M (Function.update σ k (-(σ k))) j
      = calcTheta M σ j - 2 * (σ k : ℝ) * M.W j k := by
  unfold calcTheta
  rw [sum_mul_update (M.W j) σ k]
  ring

/-- `flip(k)` restores the theta invariant. -/
lemma flip1_inv (M : RBM n m) (s : RBMStateValue n m) (k : Fin n)
    (h : s.theta = calcTheta M s.sigma) :
    (flip1 M s k).theta = calcTheta M ((flip1 M s k).sigma) := by
  funext j
  simp only [flip1]
  rw [calcTheta_update, h]

/-- `flip(array)` with an empty site list is the identity. -/
lemma flipArr_nil (M : RBM n m) (s : RBMStateValue n m) : flipArr M s [] = s := by
  apply RBMStateValue.ext
  · rfl
  · funext j
    simp [flipArr]

/-- For a site not repeated later in the list, a batch flip factors into a
single flip followed by the batch flip of the remaining sites. -/
lemma flipArr_cons (M : RBM n m) (s : RBMStateValue n m) (e : Fin n)
    (v : List (Fin n)) (he : e ∉ v) :
    flipArr M s (e :: v) = flipArr M (flip1 M s e) v := by
  apply RBMStateValue.ext
  · rfl
  · funext j
    simp only [flipArr, flip1, List.map_cons, List.sum_cons]
    have hmap : ∀ e' ∈ v,
        2 * ((Function.update s.sigma e (-(s.sigma e)) e' : ℤ) : ℝ) * M.W j e'
          = 2 * (s.sigma e' : ℝ) * M.W j e' := by
      intro e' he'
      have hne : e' ≠ e := fun hh => he (hh ▸ he')
      rw [Function.update_noteq hne]
    rw [List.map_congr_left hmap]
    ring

/-- A batch flip over pairwise-distinct sites equals the sequence of
single-site flips. -/
lemma flipArr_eq_foldl (M : RBM n m) (s : RBMStateValue n m)
    (v : List (Fin n)) (hv : v.Nodup) :
    flipArr M s v = v.foldl (flip1 M) s := by
  induction v generalizing s with
  | nil => simp [flipArr_nil]
  | cons e v ih =>
    rcases List.nodup_cons.1 hv with ⟨he, hv'⟩
    rw [flipArr_cons M s e v he, List.foldl_cons, ih _ hv']

/-- A sequence of single-site flips preserves the theta invariant. -/
lemma foldl_flip1_inv (M : RBM n m) (v : List (Fin n)) (s : RBMStateValue n m)
    (h : s.theta = calcTheta M s.sigma) :
    (v.foldl (flip1 M) s).theta = calcTheta M ((v.foldl (flip1 M) s).sigma) := by
  induction v generalizing s with
  | nil => simpa
  | cons e v ih =>
    rw [List.foldl_cons]
    exact ih _ (flip1_inv M s e h)

/-- `flip(k)` coincides with `flip(array)` on the one-element list. -/
lemma flip1_eq_flipArr (M : RBM n m) (s : RBMStateValue n m) (k : Fin n) :
    flip1 M s k = flipArr M s [k] := by
  apply RBMStateValue.ext
  · rfl
  · funext j
    simp [flip1, flipArr]

/-- `flip(k,l)` coincides with `flip(array)` on the two-element list. -/
lemma flip2_eq_flipArr (M : RBM n m) (s : RBMStateValue n m) (k l : Fin n) :
    flip2 M s k l = flipArr M s [k, l] := by
  apply RBMStateValue.ext
  · rfl
  · funext j
    simp [flip2, flipArr]
    ring

/-- Any flip call whose sites are pairwise distinct preserves the theta
invariant. -/
lemma applyFlip_inv (M : RBM n m) (s : RBMStateValue n m) (op : FlipOp n)
    (hop : distinctSites op) (h : s.theta = calcTheta M s.sigma) :
    (applyFlip M s op).theta = calcTheta M ((applyFlip M s op).sigma) := by
  cases op with
  | single k => exact flip1_inv M s k h
  | double k l =>
    have hkl : k ≠ l := hop
    have hnd : ([k, l] : List (Fin n)).Nodup := by simp [hkl]
    show (flip2 M s k l).theta = calcTheta M ((flip2 M s k l).sigma)
    rw [flip2_eq_flipArr, flipArr_eq_foldl M s _ hnd]
    exact foldl_flip1_inv M _ s h
  | multi v =>
    show (flipArr M s v).theta = calcTheta M ((flipArr M s v).sigma)
    rw [flipArr_eq_foldl M s v hop]
    exact foldl_flip1_inv M v s h

/-- A sequence of pairwise-distinct flip calls preserves the theta
invariant. -/
lemma foldl_applyFlip_inv (M : RBM n m) (ops : List (FlipOp n))
    (s : RBMStateValue n m) (hops : ∀ op ∈ ops, distinctSites op)
    (h : s.theta = calcTheta M s.sigma) :
    (ops.foldl (applyFlip M) s).theta
      = calcTheta M ((ops.foldl (applyFlip M) s).sigma) := by
  induction ops generalizing s with
  | nil => simpa
  | cons op ops ih =>
    rw [List.foldl_cons]
    exact ih (applyFlip M s op) (fun o ho => hops o (by simp [ho]))
      (applyFlip_inv M s op (hops op (by simp)) h)

/-- C1 (amended): for an `RBMStateValue` constructed with
`theta = calcTheta(sigma)`, after any sequence of flip calls in which the
sites of each individual multi-site call (`flip(k,l)`, `flip(array)`) are
pairwise distinct, the cached theta again equals `calcTheta` of the
updated sigma, in exact arithmetic.  (The unrestricted claim fails when
one batch call repeats a site, see the counterexample.) -/
theorem flip_theta_invariant_of_distinct (M : RBM n m) (σ0 : Fin n → ℤ)
    (ops : List (FlipOp n)) (hops : ∀ op ∈ ops, distinctSites op) :
    (ops.foldl (applyFlip M) (mkState M σ0)).theta
      = calcTheta M ((ops.foldl (applyFlip M) (mkState M σ0)).sigma) :=
  foldl_applyFlip_inv M ops (mkState M σ0) hops rfl

/-- C1 counterexample: on the 1×1 machine with W = 1, starting from
sigma = (+1), the single call `flip(0,0)` (in-range indices) leaves sigma
unchanged but moves theta from 1 to −3, so the invariant does not hold
when `flip` returns. -/
theorem flip_double_repeated_site_breaks_invariant :
    (applyFlip rbmW1 (mkState rbmW1 (allOnes 1)) (FlipOp.double 0 0)).theta
      ≠ calcTheta rbmW1
          ((applyFlip rbmW1 (mkState rbmW1 (allOnes 1)) (FlipOp.double 0 0)).sigma) := by
  intro h
  have h0 := congrFun h 0
  simp [applyFlip, flip2, mkState, calcTheta, rbmW1, allOnes,
    Fin.sum_univ_one, Function.update_idem, Function.update_same] at h0
  norm_num at h0

/-- C1 witness: the invariant theorem applied to a concrete machine and a
concrete one-flip sequence. -/
theorem flip_theta_invariant_of_distinct_witness :
    (∀ op ∈ [FlipOp.single (0 : Fin 1)], distinctSites op)
    ∧ (([FlipOp.single (0 : Fin 1)].foldl (applyFlip rbmW1)
          (mkState rbmW1 (allOnes 1))).theta
        = calcTheta rbmW1
            (([FlipOp.single (0 : Fin 1)].foldl (applyFlip rbmW1)
                (mkState rbmW1 (allOnes 1))).sigma)) :=
  ⟨by intro op hop; rw [List.mem_singleton] at hop; subst hop; trivial,
    flip_theta_invariant_of_distinct rbmW1 (allOnes 1) _
      (by intro op hop; rw [List.mem_singleton] at hop; subst hop; trivial)⟩

/-- C10: in the batch flips every theta update reads the pre-flip sigma and
sigma is negated only afterwards: a batch flip over pairwise-distinct sites
equals the corresponding sequence of `flip(k)` calls and restores the theta
invariant; `flip(k,k)` leaves sigma unchanged while decreasing every
`theta(j)` by `4·sigma(k)·W(j,k)`, and on a concrete machine with a nonzero
weight this breaks the invariant, so a batch flip guarantees the invariant
only for pairwise-distinct sites. -/
theorem batch_flip_reads_preflip_sigma (M : RBM n m) (s : RBMStateValue n m)
    (v : List (Fin n)) (k : Fin n) (hv : v.Nodup)
    (hs : s.theta = calcTheta M s.sigma) :
    (flipArr M s v = v.foldl (flip1 M) s)
    ∧ ((flipArr M s v).theta = calcTheta M ((flipArr M s v).sigma))
    ∧ ((flip2 M s k k).sigma = s.sigma)
    ∧ (∀ j, (flip2 M s k k).theta j = s.theta j - 4 * (s.sigma k : ℝ) * M.W j k)
    ∧ ((flip2 rbmWA (mkState rbmWA (allOnes 1)) 0 0).theta
        ≠ calcTheta rbmWA
            ((flip2 rbmWA (mkState rbmWA (allOnes 1)) 0 0).sigma)) := by
  refine ⟨flipArr_eq_foldl M s v hv, ?_, ?_, ?_, ?_⟩
  · rw [flipArr_eq_foldl M s v hv]
    exact foldl_flip1_inv M v s hs
  · simp [flip2, Function.update_idem]
  · intro j
    simp only [flip2]
    ring
  · intro h
    have h0 := congrFun h 0
    simp [flip2, mkState, calcTheta, rbmWA, allOnes,
      Fin.sum_univ_one, Function.update_idem, Function.update_same] at h0
    norm_num at h0

/-- C10 witness: the batch-flip theorem applied to a concrete machine,
state, distinct site list and site. -/
theorem batch_flip_reads_preflip_sigma_witness :
    (([0, 1] : List (Fin 2)).Nodup
      ∧ (mkState rbmA2 (allOnes 2)).theta
          = calcTheta rbmA2 ((mkState rbmA2 (allOnes 2)).sigma))
    ∧ flipArr rbmA2 (mkState rbmA2 (allOnes 2)) [0, 1]
        = [0, 1].foldl (flip1 rbmA2) (mkState rbmA2 (allOnes 2)) :=
  ⟨⟨by decide, rfl⟩,
    (batch_flip_reads_preflip_sigma rbmA2 (mkState rbmA2 (allOnes 2))
      [0, 1] 0 (by decide) rfl).1⟩

/-- Column-major flat index bound. -/
lemma idx_lt (i : Fin n) (j : Fin m) : i.val * m + j.val < n * m :=
  calc i.val * m + j.val < i.val * m + m := Nat.add_lt_add_left j.isLt _
    _ = (i.val + 1) * m := by ring
    _ ≤ n * m := Nat.mul_le_mul_right m i.isLt

/-- Column-major flat index decoding, mod part. -/
lemma idx_mod (i : Fin n) (j : Fin m) : (i.val * m + j.val) % m = j.val := by
  rw [Nat.mul_add_mod', Nat.mod_eq_of_lt j.isLt]

/-- Column-major flat index decoding, div part. -/
lemma idx_div (i : Fin n) (j : Fin m) : (i.val * m + j.val) / m = i.val := by
  have hm : 0 < m := lt_of_le_of_lt (Nat.zero_le _) j.isLt
  rw [Nat.mul_comm, Nat.mul_add_div hm, Nat.div_eq_of_lt j.isLt, Nat.add_zero]

/-- The flat parameter vector holds `W(j,i)` at column-major index `i*m+j`. -/
lemma getParams_W (M : RBM n m) (i : Fin n) (j : Fin m) :
    getParams M (i.val * m + j.val) = M.W j i := by
  unfold getParams
  rw [dif_pos (idx_lt i j)]
  congr 1
  · exact Fin.ext (by simp only [Fin.val_mk]; exact idx_mod i j)
  · exact Fin.ext (by simp only [Fin.val_mk]; exact idx_div i j)

/-- With bias, the flat parameter vector holds `a(i)` at index `n*m+i`. -/
lemma getParams_a (M : RBM n m) (hb : M.useBias = true) (i : Fin n) :
    getParams M (n * m + i.val) = M.a i := by
  unfold getParams
  rw [dif_neg (by omega), if_pos hb, dif_pos (by have := i.isLt; omega)]
  exact congrArg M.a (Fin.ext (by simp only [Fin.val_mk]; omega))

/-- With bias, the flat parameter vector holds `b(j)` at index `n*m+n+j`. -/
lemma getParams_b (M : RBM n m) (hb : M.useBias = true) (j : Fin m) :
    getParams M (n * m + n + j.val) = M.b j := by
  unfold getParams
  rw [dif_neg (by omega), if_pos hb, dif_neg (by omega),
    dif_pos (by have := j.isLt; omega)]
  exact congrArg M.b (Fin.ext (by simp only [Fin.val_mk]; omega))

/-- Writing back the flat parameters read from a machine reproduces the
machine. -/
lemma setParams_getParams (M : RBM n m) : setParams (getParams M) M = M := by
  apply RBM.ext
  · rfl
  · funext j i
    exact getParams_W M i j
  · cases hb : M.useBias with
    | false => simp [setParams, hb]
    | true =>
      simp only [setParams, hb, if_pos]
      funext i
      exact getParams_a M hb i
  · cases hb : M.useBias with
    | false => simp [setParams, hb]
    | true =>
      simp only [setParams, hb, if_pos]
      funext j
      exact getParams_b M hb j

/-- C5: `setParams(getParams())` is a no-op on every machine, with either
value of `useBias`, and consequently the `getPsi` amplitude vector is
unchanged. -/
theorem setParams_getParams_roundtrip (M : RBM n m) :
    setParams (getParams M) M = M
    ∧ getPsi (setParams (getParams M) M) = getPsi M :=
  ⟨setParams_getParams M, by rw [setParams_getParams M]⟩

/-- C6 (amended): `logDeriv` is laid out `[W flattened column-major
(entry (j,i) at flat index i*m+j), a, b]` when bias is used and `[W]` only
otherwise (entries at or beyond the parameter dimension are zero); the
weight entry for `(j,i)` is `sigma(i)·tanh(theta(j))`, the `a(i)` entry is
`sigma(i)`, the `b(j)` entry is `tanh(theta(j))`; and this is the same flat
layout produced by `getParams` and consumed by `updateParams`. -/
theorem logDeriv_layout (M : RBM n m) (σ : Fin n → ℤ) (θ : Fin m → ℝ) :
    (∀ (i : Fin n) (j : Fin m),
        logDeriv M σ θ (i.val * m + j.val) = (σ i : ℝ) * Real.tanh (θ j))
    ∧ (M.useBias = true → ∀ i : Fin n, logDeriv M σ θ (n * m + i.val) = (σ i : ℝ))
    ∧ (M.useBias = true → ∀ j : Fin m,
        logDeriv M σ θ (n * m + n + j.val) = Real.tanh (θ j))
    ∧ (∀ t, getDim M ≤ t → logDeriv M σ θ t = 0)
    ∧ (∀ (i : Fin n) (j : Fin m), getParams M (i.val * m + j.val) = M.W j i)
    ∧ (∀ p, updateParams p M = setParams (fun t => getParams M t + p t) M) := by
  refine ⟨?_, ?_, ?_, ?_, fun i j => getParams_W M i j, ?_⟩
  · intro i j
    unfold logDeriv
    rw [dif_pos (idx_lt i j)]
    congr 2
    · exact congrArg σ (Fin.ext (by simp only [Fin.val_mk]; exact idx_div i j))
    · exact congrArg θ (Fin.ext (by simp only [Fin.val_mk]; exact idx_mod i j))
  · intro hb i
    unfold logDeriv
    rw [dif_neg (by omega), if_pos hb, dif_pos (by have := i.isLt; omega)]
    exact congrArg _ (congrArg σ (Fin.ext (by simp only [Fin.val_mk]; omega)))
  · intro hb j
    unfold logDeriv
    rw [dif_neg (by omega), if_pos hb, dif_neg (by omega),
      dif_pos (by have := j.isLt; omega)]
    exact congrArg Real.tanh (congrArg θ (Fin.ext (by simp only [Fin.val_mk]; omega)))
  · intro t ht
    unfold getDim at ht
    unfold logDeriv
    by_cases hb : M.useBias = true
    · rw [if_pos hb] at ht
      rw [dif_neg (by omega), if_pos hb, dif_neg (by omega), dif_neg (by omega)]
    · rw [if_neg hb] at ht
      rw [dif_neg (by omega), if_neg hb]
  · intro p
    apply RBM.ext
    · rfl
    · funext j i
      show M.W j i + p (i.val * m + j.val)
        = getParams M (i.val * m + j.val) + p (i.val * m + j.val)
      rw [getParams_W M i j]
    · cases hb : M.useBias with
      | false => simp [updateParams, setParams, hb]
      | true =>
        simp only [updateParams, setParams, hb, if_pos]
        funext i
        rw [getParams_a M hb i]
    · cases hb : M.useBias with
      | false => simp [updateParams, setParams, hb]
      | true =>
        simp only [updateParams, setParams, hb, if_pos]
        funext j
        rw [getParams_b M hb j]

/-- C6 counterexample: the claim's row-major layout places weight entry
`(j,i) = (0,1)` of a 2×2 weight matrix at flat index `0*2+1 = 1` with value
`sigma(1)·tanh(theta(0))`; on a machine where `calcTheta` gives
theta = (0,1), the code's `logDeriv` returns `tanh(1) ≠ 0` there (its
column-major index 1 holds entry `(j,i) = (1,0)`, value
`sigma(0)·tanh(theta(1))`). -/
theorem logDeriv_not_row_major :
    logDeriv rbmB2 (allOnes 2) (calcTheta rbmB2 (allOnes 2)) 1
      ≠ ((allOnes 2) 1 : ℝ) * Real.tanh (calcTheta rbmB2 (allOnes 2) 0) := by
  have hθ : ∀ j, calcTheta rbmB2 (allOnes 2) j = if j = 0 then 0 else 1 := by
    intro j
    simp [calcTheta, rbmB2, allOnes, Fin.sum_univ_two]
  have htanh : 0 < Real.tanh 1 := by
    rw [Real.tanh_eq_sinh_div_cosh]
    exact div_pos (Real.sinh_pos_iff.2 one_pos) (Real.cosh_pos 1)
  unfold logDeriv
  rw [dif_pos (by norm_num)]
  intro h
  rw [hθ, hθ] at h
  norm_num [allOnes] at h
  exact absurd h (ne_of_gt htanh)

/-- C6 witness: the layout theorem applied to a concrete machine with bias,
reading back the `a(0)` entry at flat offset `n·m`. -/
theorem logDeriv_layout_witness :
    rbmB2.useBias = true
    ∧ logDeriv rbmB2 (allOnes 2) (calcTheta rbmB2 (allOnes 2))
        (2 * 2 + (0 : Fin 2).val) = ((allOnes 2) (0 : Fin 2) : ℝ) :=
  ⟨rfl, (logDeriv_layout rbmB2 (allOnes 2) (calcTheta rbmB2 (allOnes 2))).2.1 rfl 0⟩

/-- C7 (amended): the machine `operator==` is conjunctive, not disjunctive:
two same-sized machines compare equal exactly when the weight matrices
match and, when bias is used, both bias vectors match as well. -/
theorem rbmEq_conjunctive (M1 M2 : RBM n m) :
    rbmEq M1 M2
      ↔ (M1.W = M2.W ∧ (M1.useBias = true → M1.a = M2.a ∧ M1.b = M2.b)) := by
  unfold rbmEq
  cases hb : M1.useBias <;> simp [hb]

/-- C7 counterexample: two machines whose weight comparison matches (so a
disjunctive `operator==` would report them equal) but whose `a` biases
differ are not equal under the code's `operator==`. -/
theorem rbmEq_not_disjunctive :
    (rbmZero.W = rbmA1.W ∨ rbmZero.a = rbmA1.a ∨ rbmZero.b = rbmA1.b)
    ∧ ¬ rbmEq rbmZero rbmA1 := by
  constructor
  · left
    rfl
  · intro h
    simp only [rbmEq] at h
    rw [show rbmZero.useBias = true from rfl, if_pos rfl] at h
    have ha := congrFun h.2.1 0
    simp [rbmZero, rbmA1] at ha

/-- C7 witness: the conjunctive characterization applied to a concrete
pair of machines. -/
theorem rbmEq_conjunctive_witness :
    rbmEq rbmZero rbmZero
      ↔ (rbmZero.W = rbmZero.W
          ∧ (rbmZero.useBias = true → rbmZero.a = rbmZero.a ∧ rbmZero.b = rbmZero.b)) :=
  rbmEq_conjunctive rbmZero rbmZero

/-- C3 (amended): with theta = calcTheta(sigma), `coeff(sigma, theta)` is
`exp(logCoeff(sigma, theta))` — equivalently `exp(aᵗ·sigma)·Π_j cosh(theta_j)` —
not `exp(logCoeff)` times another factor of `Π_j cosh(theta_j)`. -/
theorem coeff_eq_exp_logCoeff (M : RBM n m) (σ : Fin n → ℤ) (θ : Fin m → ℝ)
    (h : θ = calcTheta M σ) :
    coeff M σ θ = Real.exp (logCoeff M σ θ) := by
  unfold coeff logCoeff logCosh
  rw [Real.exp_add]
  congr 1
  rw [Real.exp_sum]
  exact Finset.prod_congr rfl fun j _ => (Real.exp_log (Real.cosh_pos _)).symm

/-- C3 counterexample: on the 1×1 machine with W = 1 and zero biases at
sigma = (+1) (so theta = calcTheta(sigma) = 1), `coeff` returns cosh(1)
while `exp(logCoeff)·Π cosh(theta_j)` is cosh(1)², and cosh(1) > 1. -/
theorem coeff_not_exp_logCoeff_times_prod :
    coeff rbmW1 (allOnes 1) (calcTheta rbmW1 (allOnes 1))
      ≠ Real.exp (logCoeff rbmW1 (allOnes 1) (calcTheta rbmW1 (allOnes 1)))
        * ∏ j, Real.cosh (calcTheta rbmW1 (allOnes 1) j) := by
  have hθ : calcTheta rbmW1 (allOnes 1) = fun _ => 1 := by
    funext j
    simp [calcTheta, rbmW1, allOnes, Fin.sum_univ_one]
  have e1 : coeff rbmW1 (allOnes 1) (calcTheta rbmW1 (allOnes 1)) = Real.cosh 1 := by
    rw [hθ]
    simp [coeff, rbmW1, allOnes, Fin.sum_univ_one]
  have e2 : logCoeff rbmW1 (allOnes 1) (calcTheta rbmW1 (allOnes 1))
      = Real.log (Real.cosh 1) := by
    rw [hθ]
    simp [logCoeff, logCosh, rbmW1, allOnes, Fin.sum_univ_one]
  have e3 : (∏ j : Fin 1, Real.cosh (calcTheta rbmW1 (allOnes 1) j)) = Real.cosh 1 := by
    rw [hθ]
    simp
  rw [e1, e2, e3, Real.exp_log (Real.cosh_pos 1)]
  have hcosh : 1 < Real.cosh 1 := Real.one_lt_cosh.2 one_ne_zero
  nlinarith [Real.cosh_pos 1]

/-- C3 witness: the amended coeff/logCoeff relation applied to a concrete
machine and configuration with theta recomputed from sigma. -/
theorem coeff_eq_exp_logCoeff_witness :
    calcTheta rbmWA (allOnes 1) = calcTheta rbmWA (allOnes 1)
    ∧ coeff rbmWA (allOnes 1) (calcTheta rbmWA (allOnes 1))
        = Real.exp (logCoeff rbmWA (allOnes 1) (calcTheta rbmWA (allOnes 1))) :=
  ⟨rfl, coeff_eq_exp_logCoeff rbmWA (allOnes 1) _ rfl⟩

/-- C2: with valid cached theta, `exp(logRatio(k))` equals the ratio of the
two freshly recomputed amplitudes `coeff(sigma flipped at k)/coeff(sigma)`
(each with theta recomputed by `calcTheta`).  `logRatio(k)` is a pure
function of the state here, mirroring that the source method is `const`
and does not mutate sigma or theta. -/
theorem exp_logRatio_eq_coeff_ratio (M : RBM n m) (s : RBMStateValue n m)
    (k : Fin n) (h : s.theta = calcTheta M s.sigma) :
    Real.exp (logRatio1 M s k)
      = coeff M (Function.update s.sigma k (-(s.sigma k)))
          (calcTheta M (Function.update s.sigma k (-(s.sigma k))))
        / coeff M s.sigma (calcTheta M s.sigma) := by
  have hP : (∏ j, Real.cosh (calcTheta M s.sigma j)) ≠ 0 :=
    ne_of_gt (Finset.prod_pos fun j _ => Real.cosh_pos _)
  have hden : coeff M s.sigma (calcTheta M s.sigma) ≠ 0 := by
    unfold coeff
    exact ne_of_gt (mul_pos (Real.exp_pos _) (Finset.prod_pos fun j _ => Real.cosh_pos _))
  rw [eq_div_iff hden]
  unfold logRatio1 coeff
  simp only [h]
  rw [Real.exp_add, Real.exp_sum]
  have hterm : ∀ j ∈ (Finset.univ : Finset (Fin m)),
      Real.exp (logCosh (calcTheta M s.sigma j - 2 * (s.sigma k : ℝ) * M.W j k)
          - logCosh (calcTheta M s.sigma j))
        = Real.cosh (calcTheta M s.sigma j - 2 * (s.sigma k : ℝ) * M.W j k)
          / Real.cosh (calcTheta M s.sigma j) := by
    intro j _
    unfold logCosh
    rw [Real.exp_sub, Real.exp_log (Real.cosh_pos _), Real.exp_log (Real.cosh_pos _)]
  rw [Finset.prod_congr rfl hterm, Finset.prod_div_distrib,
    sum_mul_update M.a s.sigma k,
    Finset.prod_congr rfl (fun j _ => congrArg Real.cosh (calcTheta_update M s.sigma k j)),
    show (∑ i, M.a i * (s.sigma i : ℝ)) - 2 * (s.sigma k : ℝ) * M.a k
        = (∑ i, M.a i * (s.sigma i : ℝ)) + (-2 * M.a k * (s.sigma k : ℝ)) from by ring,
    Real.exp_add]
  field_simp
  ring

/-- C2 witness: the ratio-correctness theorem applied to a concrete machine
and a state constructed with theta = calcTheta(sigma). -/
theorem exp_logRatio_eq_coeff_ratio_witness :
    (mkState rbmWA (allOnes 1)).theta
        = calcTheta rbmWA ((mkState rbmWA (allOnes 1)).sigma)
    ∧ Real.exp (logRatio1 rbmWA (mkState rbmWA (allOnes 1)) 0)
        = coeff rbmWA (Function.update (mkState rbmWA (allOnes 1)).sigma 0
              (-((mkState rbmWA (allOnes 1)).sigma 0)))
            (calcTheta rbmWA (Function.update (mkState rbmWA (allOnes 1)).sigma 0
              (-((mkState rbmWA (allOnes 1)).sigma 0))))
          / coeff rbmWA (mkState rbmWA (allOnes 1)).sigma
              (calcTheta rbmWA (mkState rbmWA (allOnes 1)).sigma) :=
  ⟨rfl, exp_logRatio_eq_coeff_ratio rbmWA (mkState rbmWA (allOnes 1)) 0 rfl⟩

/-- Splitting the net two-site logcosh difference into two telescoping
single-site differences. -/
lemma two_site_sum_split (θ A B : Fin m → ℝ) :
    ∑ j, (logCosh (θ j - A j - B j) - logCosh (θ j))
      = (∑ j, (logCosh (θ j - A j) - logCosh (θ j)))
        + ∑ j, (logCosh (θ j - A j - B j) - logCosh (θ j - A j)) := by
  rw [← Finset.sum_add_distrib]
  exact Finset.sum_congr rfl fun j _ => by ring

/-- C4 (amended): for distinct sites k ≠ l, both `logRatio({k,l})` and
`logRatio(k,l)` equal `logRatio(k)` on the current state plus `logRatio(l)`
on the state after `flip(k)` has been committed, in exact arithmetic.
(For k = l the identity fails, see the counterexample.) -/
theorem logRatio_multi_flip_composition (M : RBM n m) (s : RBMStateValue n m)
    (k l : Fin n) (hkl : k ≠ l) (h : s.theta = calcTheta M s.sigma) :
    logRatioArr M s [k, l] = logRatio1 M s k + logRatio1 M (flip1 M s k) l
    ∧ logRatio2 M s k l = logRatio1 M s k + logRatio1 M (flip1 M s k) l := by
  have hσl : Function.update s.sigma k (-(s.sigma k)) l = s.sigma l :=
    Function.update_noteq (Ne.symm hkl) _ _
  have eArr : logRatioArr M s [k, l]
      = (-2 * M.a k * (s.sigma k : ℝ) + -2 * M.a l * (s.sigma l : ℝ))
        + ∑ j, (logCosh (s.theta j - 2 * (s.sigma k : ℝ) * M.W j k
                  - 2 * (s.sigma l : ℝ) * M.W j l) - logCosh (s.theta j)) := by
    unfold logRatioArr
    simp only [List.map_cons, List.map_nil, List.sum_cons, List.sum_nil, add_zero]
    congr 1
    exact Finset.sum_congr rfl fun j _ => by
      rw [show s.theta j - (2 * (s.sigma k : ℝ) * M.W j k
            + 2 * (s.sigma l : ℝ) * M.W j l)
          = s.theta j - 2 * (s.sigma k : ℝ) * M.W j k
            - 2 * (s.sigma l : ℝ) * M.W j l from by ring]
  have e2 : logRatio2 M s k l
      = (-2 * M.a k * (s.sigma k : ℝ) + -2 * M.a l * (s.sigma l : ℝ))
        + ∑ j, (logCosh (s.theta j - 2 * (s.sigma k : ℝ) * M.W j k
                  - 2 * (s.sigma l : ℝ) * M.W j l) - logCosh (s.theta j)) := by
    unfold logRatio2
    ring
  have eRHS : logRatio1 M s k + logRatio1 M (flip1 M s k) l
      = (-2 * M.a k * (s.sigma k : ℝ) + -2 * M.a l * (s.sigma l : ℝ))
        + ∑ j, (logCosh (s.theta j - 2 * (s.sigma k : ℝ) * M.W j k
                  - 2 * (s.sigma l : ℝ) * M.W j l) - logCosh (s.theta j)) := by
    unfold logRatio1 flip1
    dsimp only
    rw [hσl,
      two_site_sum_split s.theta (fun j => 2 * (s.sigma k : ℝ) * M.W j k)
        (fun j => 2 * (s.sigma l : ℝ) * M.W j l)]
    ring
  exact ⟨by rw [eArr, eRHS], by rw [e2, eRHS]⟩

/-- C4 counterexample: with k = l (in-range), on the 1×1 machine with
a = 1, W = 0 at sigma = (+1), `logRatio({0,0})` is −4 while
`logRatio(0) + logRatio(0, after flip(0))` is 0. -/
theorem logRatio_repeated_site_not_compositional :
    logRatioArr rbmA1 (mkState rbmA1 (allOnes 1)) [0, 0]
      ≠ logRatio1 rbmA1 (mkState rbmA1 (allOnes 1)) 0
        + logRatio1 rbmA1 (flip1 rbmA1 (mkState rbmA1 (allOnes 1)) 0) 0 := by
  intro h
  simp [logRatioArr, logRatio1, flip1, mkState, calcTheta, logCosh, rbmA1,
    allOnes, Fin.sum_univ_one, Function.update_same, Real.cosh_zero,
    Real.log_one] at h

/-- C4 witness: the composition theorem applied to a concrete machine,
state and pair of distinct sites. -/
theorem logRatio_multi_flip_composition_witness :
    ((0 : Fin 2) ≠ 1
      ∧ (mkState rbmA2 (allOnes 2)).theta
          = calcTheta rbmA2 ((mkState rbmA2 (allOnes 2)).sigma))
    ∧ logRatioArr rbmA2 (mkState rbmA2 (allOnes 2)) [0, 1]
        = logRatio1 rbmA2 (mkState rbmA2 (allOnes 2)) 0
          + logRatio1 rbmA2 (flip1 rbmA2 (mkState rbmA2 (allOnes 2)) 0) 1 :=
  ⟨⟨by decide, rfl⟩,
    (logRatio_multi_flip_composition rbmA2 (mkState rbmA2 (allOnes 2)) 0 1
      (by decide) rfl).1⟩

/-- The callback trace of the run loop: epochs `ll, ll+1, ...` for `c`
iterations, one callback per iteration, for every step function. -/
lemma runExactFrom_spec {A : Type} (step : A → A × ℝ × ℝ) (c : ℕ) :
    ∀ (ll : ℕ) (mach : A),
      (runExactFrom step ll c mach).2.map Prod.fst = List.range' ll c
      ∧ (runExactFrom step ll c mach).2.length = c := by
  induction c with
  | zero =>
    intro ll mach
    simp [runExactFrom]
  | succ c ih =>
    intro ll mach
    simp only [runExactFrom, List.map_cons, List.length_cons]
    rw [List.range'_succ]
    exact ⟨by rw [(ih (ll + 1) (step mach).1).1],
      by rw [(ih (ll + 1) (step mach).1).2]⟩

/-- C9: `RunRBMExact::run` always terminates and performs exactly
`maxIter + 1` iterations (epochs 0..maxIter), invoking the callback exactly
once per iteration; the count is determined solely by the caller-specified
maximum iteration count — the statement holds for every per-iteration step
function, so the computed energies never influence the iteration count:
there is no convergence-based early exit. -/
theorem runRBMExact_fixed_iteration_count {A : Type} (step : A → A × ℝ × ℝ)
    (maxIter : ℕ) (m0 : A) :
    (runRBMExact step maxIter m0).2.length = maxIter + 1
    ∧ (runRBMExact step maxIter m0).2.map Prod.fst = List.range (maxIter + 1) := by
  have h := runExactFrom_spec step (maxIter + 1) 0 m0
  exact ⟨h.2, by rw [List.range_eq_range']; exact h.1⟩

end Yannq
